import Mathlib

/-!
Shallow embedding of the `matrix` Rust crate (`src/lib.rs`): a statically
dimensioned matrix type `Matrix<C, ROWS, COLS>` storing `data : [[C; COLS]; ROWS]`,
with accessors, arithmetic operators, square-matrix factories and the elementary
row operations of Gaussian elimination.

A matrix value is embedded as a `List (List C)` (the `data` field, row-major);
the compile-time dimension guarantees of the Rust const generics are carried as
the `Dims` predicate in theorem hypotheses.  The in-place fallible mutators
(`permute`, `dilate`, `transvect`) return `Result<(), Error>` in Rust while
mutating `self`; they are embedded in state-passing style, returning both the
`Except Error Unit` result and the matrix state after the call (on the early
error returns the state is the unmodified input, exactly as in the source where
the checks precede any write).
-/

namespace MatrixLib

/-- The error enum of the library (`Error` in `src/lib.rs`): `OutOfBounds` for a
row/column index outside the valid range, `WrongOperation` for an index
combination that is individually valid but semantically disallowed. -/
inductive Error where
  | OutOfBounds
  | WrongOperation
deriving DecidableEq

/-- `Dims m R K`: the list-of-lists `m` has the shape of a `[[C; K]; R]` array,
i.e. exactly `R` rows each of exactly `K` coefficients.  In Rust this is
structural (enforced by the fixed-size array type), never checked at runtime. -/
def Dims {C : Type} (m : List (List C)) (R K : Nat) : Prop :=
  m.length = R ∧ ∀ row ∈ m, row.length = K

instance {C : Type} (m : List (List C)) (R K : Nat) : Decidable (Dims m R K) := by
  unfold Dims; infer_instance

/-- `Matrix::from(data)`: conversion from a nested fixed-size array literal;
it just wraps the data (`Matrix { data }`), so on the embedded representation
it is the identity. -/
def fromArray {C : Type} (data : List (List C)) : List (List C) :=
  data

/-- `Matrix::get(row, col)`: `match self.data.get(row) { None => None,
Some(line) => line.get(col) }`. -/
def get {C : Type} (m : List (List C)) (row col : Nat) : Option C :=
  match m.get? row with
  | none => none
  | some line => line.get? col

/-- `Matrix::get_line(index)`: `self.data.get(index)`. -/
def get_line {C : Type} (m : List (List C)) (index : Nat) : Option (List C) :=
  m.get? index

/-- `MulAssign<&C>` (`*= coef`): every coefficient of every row is multiplied
in place by the scalar (`*c *= coef`). -/
def mul_assign {C : Type} [Mul C] (m : List (List C)) (coef : C) : List (List C) :=
  m.map fun row => row.map fun c => c * coef

/-- `AddAssign` (`+= other`): rows are zipped pairwise and, inside each pair of
rows, coefficients are zipped pairwise with `*a += *b`. -/
def add_assign {C : Type} [Add C] (m other : List (List C)) : List (List C) :=
  List.zipWith (fun row_a row_b => List.zipWith (fun a b => a + b) row_a row_b) m other

/-- `Mul` (matrix product): for `row in 0..ROWS`, `col in 0..COLS`, the entry is
`self.data[row].iter().enumerate().map(|(j, a)| a * other.data[j][col]).sum()`.
The Rust code writes into an uninitialized staging buffer; semantically the
result is the fully populated `ROWS × COLS` grid built here.  The defaults
passed to `getD` are never reached on dimension-correct inputs (in Rust the
array types make the accesses structurally in-bounds). -/
def mul {C : Type} [Mul C] [Add C] [Zero C] (ROWS COLS : Nat)
    (m other : List (List C)) : List (List C) :=
  (List.range ROWS).map fun row =>
    (List.range COLS).map fun col =>
      ((m.getD row []).enum.map fun ja => ja.2 * ((other.getD ja.1 []).getD col 0)).sum

/-- `Matrix::<C, SIZE, SIZE>::nil()`: `[[C::zero(); SIZE]; SIZE]`. -/
def nil {C : Type} [Zero C] (SIZE : Nat) : List (List C) :=
  List.replicate SIZE (List.replicate SIZE 0)

/-- `Matrix::<C, SIZE, SIZE>::identity()`: starts from `nil()` and runs
`for i in 0..SIZE { m.data[i][i] = C::one() }`. -/
def identity {C : Type} [Zero C] [One C] (SIZE : Nat) : List (List C) :=
  (List.range SIZE).foldl (fun m i => m.set i ((m.getD i []).set i 1)) (nil SIZE)

/-- `permute(source, target)`: if `(target >= SIZE) | (source >= SIZE)` return
`Err(OutOfBounds)` (state untouched); otherwise swap rows `source` and `target`
(`self.data.as_mut_slice().swap(source, target)`) and return `Ok(())`. -/
def permute {C : Type} (SIZE : Nat) (m : List (List C)) (source target : Nat) :
    Except Error Unit × List (List C) :=
  if SIZE ≤ target ∨ SIZE ≤ source then
    (Except.error Error.OutOfBounds, m)
  else
    (Except.ok (), (m.set source (m.getD target [])).set target (m.getD source []))

/-- `dilate(row, factor)`: `match self.data.get_mut(row)` — `None` yields
`Err(OutOfBounds)` (state untouched), `Some(line)` multiplies every coefficient
of that row in place by the factor (`*c *= factor`) and returns `Ok(())`. -/
def dilate {C : Type} [Mul C] (m : List (List C)) (row : Nat) (factor : C) :
    Except Error Unit × List (List C) :=
  match m.get? row with
  | none => (Except.error Error.OutOfBounds, m)
  | some line => (Except.ok (), m.set row (line.map fun c => c * factor))

/-- `transvect(source, other)`: if `(other >= SIZE) | (source >= SIZE)` return
`Err(OutOfBounds)`; else if `other == source` return `Err(WrongOperation)`
(state untouched in both early returns); otherwise split the rows disjointly
and add row `other` into row `source` coefficient-wise
(`*c += &end[i]`), returning `Ok(())`. -/
def transvect {C : Type} [Add C] (SIZE : Nat) (m : List (List C)) (source other : Nat) :
    Except Error Unit × List (List C) :=
  if SIZE ≤ other ∨ SIZE ≤ source then
    (Except.error Error.OutOfBounds, m)
  else if other = source then
    (Except.error Error.WrongOperation, m)
  else
    (Except.ok (),
      m.set source (List.zipWith (fun a b => a + b) (m.getD source []) (m.getD other [])))

end MatrixLib

namespace MatrixLib

/-! Helper lemmas about list indexing, shared by the claim theorems. -/

/-- Writing back the element already stored at an index leaves the list unchanged. -/
theorem set_getD_self {α : Type} (l : List α) (i : Nat) (d : α) :
    l.set i (l.getD i d) = l := by
  induction l generalizing i with
  | nil => rfl
  | cons a t ih =>
    cases i with
    | zero => rfl
    | succ n =>
      show a :: t.set n (t.getD n d) = a :: t
      rw [ih]

/-- In-bounds `get?` returns `some` of the `getD` value, for any default. -/
theorem get?_eq_some_getD {α : Type} (l : List α) (i : Nat) (d : α) (h : i < l.length) :
    l.get? i = some (l.getD i d) := by
  rw [List.getD_eq_getElem l d h, List.get?_eq_getElem?, List.getElem?_eq_getElem h]

/-- C3: complete classification of `transvect`'s result flag: `OutOfBounds` iff
some index is `≥ SIZE`; `WrongOperation` iff both indices are in bounds and
equal; success iff both are in bounds and distinct. -/
theorem transvect_error_classification {C : Type} [Add C]
    (SIZE : Nat) (m : List (List C)) (source other : Nat) :
    ((transvect SIZE m source other).1 = Except.error Error.OutOfBounds ↔
      SIZE ≤ source ∨ SIZE ≤ other) ∧
    ((transvect SIZE m source other).1 = Except.error Error.WrongOperation ↔
      source < SIZE ∧ other < SIZE ∧ source = other) ∧
    ((transvect SIZE m source other).1 = Except.ok () ↔
      source < SIZE ∧ other < SIZE ∧ source ≠ other) := by
  unfold transvect
  by_cases hb : SIZE ≤ other ∨ SIZE ≤ source
  · rw [if_pos hb]
    refine ⟨?_, ?_, ?_⟩ <;> simp <;> omega
  · rw [if_neg hb]
    push_neg at hb
    by_cases he : other = source
    · rw [if_pos he]
      refine ⟨?_, ?_, ?_⟩ <;> simp <;> omega
    · rw [if_neg he]
      refine ⟨?_, ?_, ?_⟩ <;> simp <;> omega

/-- C10: in `transvect` the bounds check precedes the equal-index check: an
out-of-bounds index `i` used as both arguments yields `OutOfBounds`, never
`WrongOperation`, and `WrongOperation` is only returned when both indices are
strictly below `SIZE`. -/
theorem transvect_bounds_precedence {C : Type} [Add C]
    (SIZE : Nat) (m : List (List C)) :
    (∀ i, SIZE ≤ i → (transvect SIZE m i i).1 = Except.error Error.OutOfBounds) ∧
    (∀ s o, (transvect SIZE m s o).1 = Except.error Error.WrongOperation →
      s < SIZE ∧ o < SIZE) := by
  constructor
  · intro i hi
    unfold transvect
    rw [if_pos (Or.inl hi)]
  · intro s o h
    unfold transvect at h
    by_cases hb : SIZE ≤ o ∨ SIZE ≤ s
    · rw [if_pos hb] at h
      simp at h
    · push_neg at hb
      exact ⟨hb.2, hb.1⟩

/-- C10 witness: at `SIZE = 3` on a concrete matrix, `transvect(3, 3)` with the
out-of-range index 3 yields `OutOfBounds`. -/
theorem transvect_bounds_precedence_witness :
    (3 ≤ 3) ∧
    (transvect 3 ([[1, 2, 1], [3, 4, 1], [1, 5, 6]] : List (List Int)) 3 3).1 =
      Except.error Error.OutOfBounds :=
  ⟨by decide,
    (transvect_bounds_precedence 3 ([[1, 2, 1], [3, 4, 1], [1, 5, 6]] : List (List Int))).1
      3 (by decide)⟩

/-- C2: on a `SIZE×SIZE` matrix with distinct in-bounds indices, `transvect`
succeeds, row `source` becomes the coefficient-wise sum of the original rows
`source` and `other`, and every row other than `source` (in particular row
`other`) is unchanged. -/
theorem transvect_success {C : Type} [Add C] (SIZE : Nat) (m : List (List C))
    (hm : m.length = SIZE) (source other : Nat)
    (hs : source < SIZE) (ho : other < SIZE) (hne : source ≠ other) :
    (transvect SIZE m source other).1 = Except.ok () ∧
    (transvect SIZE m source other).2.get? source =
      some (List.zipWith (fun a b => a + b) (m.getD source []) (m.getD other [])) ∧
    (∀ r, r ≠ source → (transvect SIZE m source other).2.get? r = m.get? r) := by
  have hcond : ¬ (SIZE ≤ other ∨ SIZE ≤ source) := by omega
  have heq : ¬ (other = source) := fun h => hne h.symm
  unfold transvect
  rw [if_neg hcond, if_neg heq]
  refine ⟨rfl, ?_, ?_⟩
  · rw [List.get?_set_eq_of_lt _ (by omega : source < m.length)]
  · intro r hr
    exact List.get?_set_ne _ _ (fun h => hr h.symm)

/-- C2 witness: the spec's example — `transvect(0, 1)` on
`[[1,2,1],[3,4,1],[1,5,6]]` succeeds and row 0 becomes `[4,6,2]` while rows 1
and 2 are unchanged. -/
theorem transvect_success_witness :
    ([[1, 2, 1], [3, 4, 1], [1, 5, 6]] : List (List Int)).length = 3 ∧
    0 < 3 ∧ 1 < 3 ∧ (0 : Nat) ≠ 1 ∧
    (transvect 3 ([[1, 2, 1], [3, 4, 1], [1, 5, 6]] : List (List Int)) 0 1).1 =
      Except.ok () ∧
    (transvect 3 ([[1, 2, 1], [3, 4, 1], [1, 5, 6]] : List (List Int)) 0 1).2.get? 0 =
      some [4, 6, 2] ∧
    (transvect 3 ([[1, 2, 1], [3, 4, 1], [1, 5, 6]] : List (List Int)) 0 1).2.get? 1 =
      some [3, 4, 1] := by
  have h := transvect_success 3 ([[1, 2, 1], [3, 4, 1], [1, 5, 6]] : List (List Int))
    (by decide) 0 1 (by decide) (by decide) (by decide)
  refine ⟨by decide, by decide, by decide, by decide, h.1, ?_, ?_⟩
  · rw [h.2.1]; decide
  · rw [h.2.2 1 (by decide)]; decide

/-- C4: whenever `permute`, `dilate` or `transvect` returns an error, the
matrix state after the call is exactly the input state: all validity checks
precede any write. -/
theorem no_partial_mutation {C : Type} [Add C] [Mul C] (SIZE : Nat) (m : List (List C)) :
    (∀ source target e, (permute SIZE m source target).1 = Except.error e →
      (permute SIZE m source target).2 = m) ∧
    (∀ row factor e, (dilate m row factor).1 = Except.error e →
      (dilate m row factor).2 = m) ∧
    (∀ source other e, (transvect SIZE m source other).1 = Except.error e →
      (transvect SIZE m source other).2 = m) := by
  refine ⟨?_, ?_, ?_⟩
  · intro s t e h
    unfold permute at h ⊢
    by_cases hb : SIZE ≤ t ∨ SIZE ≤ s
    · rw [if_pos hb]
    · rw [if_neg hb] at h
      simp at h
  · intro r f e h
    unfold dilate at h ⊢
    cases hg : m.get? r with
    | none => rfl
    | some line =>
      rw [hg] at h
      simp at h
  · intro s o e h
    unfold transvect at h ⊢
    by_cases hb : SIZE ≤ o ∨ SIZE ≤ s
    · rw [if_pos hb]
    · rw [if_neg hb] at h ⊢
      by_cases he : o = s
      · rw [if_pos he]
      · rw [if_neg he] at h
        simp at h

/-- C4 witness: on a concrete 3×3 matrix, the failing calls `permute(4, 0)`,
`dilate(4, 1)` and `transvect(0, 0)` each leave the matrix unchanged. -/
theorem no_partial_mutation_witness :
    (permute 3 ([[1, 2, 1], [3, 4, 1], [1, 5, 6]] : List (List Int)) 4 0).1 =
      Except.error Error.OutOfBounds ∧
    (permute 3 ([[1, 2, 1], [3, 4, 1], [1, 5, 6]] : List (List Int)) 4 0).2 =
      [[1, 2, 1], [3, 4, 1], [1, 5, 6]] ∧
    (dilate ([[1, 2, 1], [3, 4, 1], [1, 5, 6]] : List (List Int)) 4 1).2 =
      [[1, 2, 1], [3, 4, 1], [1, 5, 6]] ∧
    (transvect 3 ([[1, 2, 1], [3, 4, 1], [1, 5, 6]] : List (List Int)) 0 0).2 =
      [[1, 2, 1], [3, 4, 1], [1, 5, 6]] := by
  have h := no_partial_mutation (C := Int) 3 [[1, 2, 1], [3, 4, 1], [1, 5, 6]]
  exact ⟨rfl, h.1 4 0 Error.OutOfBounds rfl,
    h.2.1 4 1 Error.OutOfBounds rfl,
    h.2.2 0 0 Error.WrongOperation rfl⟩

/-- C5: `permute` on a `SIZE×SIZE` matrix with both indices in bounds succeeds,
exchanges rows `source` and `target` and leaves every other row unchanged;
with `source = target` it succeeds leaving the matrix unchanged; and it
returns `OutOfBounds` exactly when some index is `≥ SIZE`. -/
theorem permute_spec {C : Type} (SIZE : Nat) (m : List (List C)) (hm : m.length = SIZE)
    (source target : Nat) :
    (source < SIZE → target < SIZE →
      (permute SIZE m source target).1 = Except.ok () ∧
      (permute SIZE m source target).2.get? source = m.get? target ∧
      (permute SIZE m source target).2.get? target = m.get? source ∧
      (∀ r, r ≠ source → r ≠ target → (permute SIZE m source target).2.get? r = m.get? r) ∧
      (source = target → (permute SIZE m source target).2 = m)) ∧
    ((permute SIZE m source target).1 = Except.error Error.OutOfBounds ↔
      SIZE ≤ source ∨ SIZE ≤ target) := by
  by_cases hb : SIZE ≤ target ∨ SIZE ≤ source
  · constructor
    · intro hs ht
      exact ((by omega : False)).elim
    · unfold permute
      rw [if_pos hb]
      simp
      omega
  · push_neg at hb
    unfold permute
    rw [if_neg (by omega : ¬ (SIZE ≤ target ∨ SIZE ≤ source))]
    constructor
    · intro hs ht
      refine ⟨rfl, ?_, ?_, ?_, ?_⟩
      · by_cases hst : source = target
        · subst hst
          rw [set_getD_self, set_getD_self]
        · rw [List.get?_set_ne _ _ (fun h => hst h.symm),
            List.get?_set_eq_of_lt _ (by omega : source < m.length)]
          exact (get?_eq_some_getD m target [] (by omega)).symm
      · rw [List.get?_set_eq_of_lt _ (by rw [List.length_set]; omega)]
        exact (get?_eq_some_getD m source [] (by omega)).symm
      · intro r hr1 hr2
        rw [List.get?_set_ne _ _ (fun h => hr2 h.symm),
          List.get?_set_ne _ _ (fun h => hr1 h.symm)]
      · intro hst
        subst hst
        rw [set_getD_self, set_getD_self]
    · simp
      omega

/-- C5 witness: the spec's example — `permute(0, 1)` on
`[[1,2,1],[3,4,1],[1,5,6]]` succeeds, rows 0 and 1 are exchanged, row 2 is
unchanged. -/
theorem permute_spec_witness :
    ([[1, 2, 1], [3, 4, 1], [1, 5, 6]] : List (List Int)).length = 3 ∧ 0 < 3 ∧ 1 < 3 ∧
    (permute 3 ([[1, 2, 1], [3, 4, 1], [1, 5, 6]] : List (List Int)) 0 1).1 =
      Except.ok () ∧
    (permute 3 ([[1, 2, 1], [3, 4, 1], [1, 5, 6]] : List (List Int)) 0 1).2.get? 0 =
      some [3, 4, 1] ∧
    (permute 3 ([[1, 2, 1], [3, 4, 1], [1, 5, 6]] : List (List Int)) 0 1).2.get? 1 =
      some [1, 2, 1] ∧
    (permute 3 ([[1, 2, 1], [3, 4, 1], [1, 5, 6]] : List (List Int)) 0 1).2.get? 2 =
      some [1, 5, 6] := by
  have h := (permute_spec 3 ([[1, 2, 1], [3, 4, 1], [1, 5, 6]] : List (List Int))
    (by decide) 0 1).1 (by decide) (by decide)
  refine ⟨by decide, by decide, by decide, h.1, ?_, ?_, ?_⟩
  · rw [h.2.1]; decide
  · rw [h.2.2.1]; decide
  · rw [h.2.2.2.1 2 (by decide) (by decide)]; decide

/-- C7: `dilate` on a `SIZE×SIZE` matrix with `row < SIZE` succeeds,
multiplies every coefficient of row `row` by the factor and leaves every
other row unchanged; with `row ≥ SIZE` it returns `OutOfBounds` and leaves
the matrix unchanged. -/
theorem dilate_spec {C : Type} [Mul C] (SIZE : Nat) (m : List (List C))
    (hm : m.length = SIZE) (row : Nat) (factor : C) :
    (row < SIZE →
      (dilate m row factor).1 = Except.ok () ∧
      (dilate m row factor).2.get? row = some ((m.getD row []).map fun c => c * factor) ∧
      (∀ r, r ≠ row → (dilate m row factor).2.get? r = m.get? r)) ∧
    (SIZE ≤ row →
      (dilate m row factor).1 = Except.error Error.OutOfBounds ∧
      (dilate m row factor).2 = m) := by
  constructor
  · intro hr
    have hg : m.get? row = some (m.getD row []) := get?_eq_some_getD m row [] (by omega)
    unfold dilate
    rw [hg]
    refine ⟨rfl, ?_, ?_⟩
    · rw [List.get?_set_eq_of_lt _ (by omega : row < m.length)]
    · intro r hrr
      exact List.get?_set_ne _ _ (fun h => hrr h.symm)
  · intro hr
    have hg : m.get? row = none := List.get?_eq_none.mpr (by omega)
    unfold dilate
    rw [hg]
    exact ⟨rfl, rfl⟩

/-- C7 witness: the tests' examples — `dilate(1, 2)` on
`[[1,2,1],[3,4,1],[1,5,6]]` succeeds with row 1 becoming `[6,8,2]` and rows
0, 2 unchanged, while `dilate(4, 1)` fails with `OutOfBounds` leaving the
matrix unchanged. -/
theorem dilate_spec_witness :
    ([[1, 2, 1], [3, 4, 1], [1, 5, 6]] : List (List Int)).length = 3 ∧ 1 < 3 ∧ 3 ≤ 4 ∧
    (dilate ([[1, 2, 1], [3, 4, 1], [1, 5, 6]] : List (List Int)) 1 2).1 =
      Except.ok () ∧
    (dilate ([[1, 2, 1], [3, 4, 1], [1, 5, 6]] : List (List Int)) 1 2).2.get? 1 =
      some [6, 8, 2] ∧
    (dilate ([[1, 2, 1], [3, 4, 1], [1, 5, 6]] : List (List Int)) 1 2).2.get? 0 =
      some [1, 2, 1] ∧
    (dilate ([[1, 2, 1], [3, 4, 1], [1, 5, 6]] : List (List Int)) 4 1).1 =
      Except.error Error.OutOfBounds ∧
    (dilate ([[1, 2, 1], [3, 4, 1], [1, 5, 6]] : List (List Int)) 4 1).2 =
      [[1, 2, 1], [3, 4, 1], [1, 5, 6]] := by
  have h := (dilate_spec 3 ([[1, 2, 1], [3, 4, 1], [1, 5, 6]] : List (List Int))
    (by decide) 1 2).1 (by decide)
  have h4 := (dilate_spec 3 ([[1, 2, 1], [3, 4, 1], [1, 5, 6]] : List (List Int))
    (by decide) 4 1).2 (by decide)
  refine ⟨by decide, by decide, by decide, h.1, ?_, ?_, h4.1, h4.2⟩
  · rw [h.2.1]; decide
  · rw [h.2.2 0 (by decide)]; decide

/-- `get` returns `some x` exactly when row `row` exists and its `col`-th entry
is `x`. -/
theorem get_eq_some {C : Type} (m : List (List C)) (row col : Nat) (x : C) :
    get m row col = some x ↔
      ∃ line, m.get? row = some line ∧ line.get? col = some x := by
  unfold get
  cases hg : m.get? row with
  | none => simp
  | some line => simp

/-- C8: `+=` on matrices of identical dimensions produces the element-wise sum
(dimensions are preserved and every entry of the result is the sum of the
corresponding entries), and on the spec's example
`[[1,2],[3,4],[5,6]] += [[1,2],[3,4],[5,6]]` yields `[[2,4],[6,8],[10,12]]`. -/
theorem add_assign_spec {C : Type} [Add C] :
    (∀ (R K : Nat) (a b : List (List C)), Dims a R K → Dims b R K →
      Dims (add_assign a b) R K ∧
      (∀ i j x y, get a i j = some x → get b i j = some y →
        get (add_assign a b) i j = some (x + y))) ∧
    add_assign ([[1, 2], [3, 4], [5, 6]] : List (List Int)) [[1, 2], [3, 4], [5, 6]] =
      [[2, 4], [6, 8], [10, 12]] := by
  constructor
  · intro R K a b ha hb
    constructor
    · constructor
      · rw [add_assign, List.length_zipWith, ha.1, hb.1, Nat.min_self]
      · intro row hrow
        rw [add_assign] at hrow
        rcases List.mem_iff_get?.mp hrow with ⟨i, hi⟩
        rw [List.get?_zipWith'] at hi
        cases hga : a.get? i with
        | none => rw [hga] at hi; simp at hi
        | some ra =>
          cases hgb : b.get? i with
          | none => rw [hga, hgb] at hi; simp at hi
          | some rb =>
            rw [hga, hgb] at hi
            simp only [Option.map_some', Option.some_bind, Option.some.injEq] at hi
            rw [← hi, List.length_zipWith, ha.2 ra (List.get?_mem hga),
              hb.2 rb (List.get?_mem hgb), Nat.min_self]
    · intro i j x y hx hy
      rcases (get_eq_some a i j x).mp hx with ⟨ra, hra, hxa⟩
      rcases (get_eq_some b i j y).mp hy with ⟨rb, hrb, hyb⟩
      apply (get_eq_some _ i j _).mpr
      refine ⟨List.zipWith (fun a b => a + b) ra rb, ?_, ?_⟩
      · rw [add_assign, List.get?_zipWith', hra, hrb]
        rfl
      · rw [List.get?_zipWith', hxa, hyb]
        rfl
  · decide

/-- C8 witness: on the spec's example matrices (dimension 3×2), the entry at
(2, 1) of the sum is `6 + 6 = 12`. -/
theorem add_assign_spec_witness :
    Dims ([[1, 2], [3, 4], [5, 6]] : List (List Int)) 3 2 ∧
    get (add_assign ([[1, 2], [3, 4], [5, 6]] : List (List Int)) [[1, 2], [3, 4], [5, 6]])
      2 1 = some 12 := by
  refine ⟨by decide, ?_⟩
  have h := (add_assign_spec.1 3 2 ([[1, 2], [3, 4], [5, 6]] : List (List Int))
    [[1, 2], [3, 4], [5, 6]] (by decide) (by decide)).2 2 1 6 6 (by decide) (by decide)
  rw [h]
  decide

/-- C9: converting a nested array literal with `fromArray` and reading back any
in-bounds `(row, col)` through `get` reproduces exactly the original entry
(present, not absent), while any out-of-range index yields `none` rather than
a panic. -/
theorem from_get_roundtrip {C : Type} (R K : Nat) (m : List (List C)) (h : Dims m R K) :
    (∀ row col, row < R → col < K →
      get (fromArray m) row col = (m.getD row []).get? col ∧
      ((m.getD row []).get? col).isSome = true) ∧
    (∀ row col, R ≤ row ∨ K ≤ col → get (fromArray m) row col = none) := by
  have hR : m.length = R := h.1
  constructor
  · intro row col hr hc
    have hg : m.get? row = some (m.getD row []) :=
      get?_eq_some_getD m row [] (by omega)
    have hlen : (m.getD row []).length = K := h.2 _ (List.get?_mem hg)
    constructor
    · unfold fromArray get
      rw [hg]
    · rw [List.get?_eq_getElem?, List.getElem?_eq_getElem (by omega)]
      rfl
  · intro row col hrc
    unfold fromArray get
    rcases hrc with hr | hc
    · rw [List.get?_eq_none.mpr (by omega)]
    · cases hg : m.get? row with
      | none => rfl
      | some line =>
        have hlen : line.length = K := h.2 _ (List.get?_mem hg)
        show line.get? col = none
        exact List.get?_eq_none.mpr (by omega)

/-- C9 witness: for the concrete 2×3 literal `[[9,8,7],[6,5,4]]`, `get(1, 2)`
reads back `4` and the out-of-range `get(2, 0)` is `none`. -/
theorem from_get_roundtrip_witness :
    Dims ([[9, 8, 7], [6, 5, 4]] : List (List Int)) 2 3 ∧ (1 : Nat) < 2 ∧ (2 : Nat) < 3 ∧
    get (fromArray ([[9, 8, 7], [6, 5, 4]] : List (List Int))) 1 2 = some 4 ∧
    get (fromArray ([[9, 8, 7], [6, 5, 4]] : List (List Int))) 2 0 = none := by
  have h := from_get_roundtrip 2 3 ([[9, 8, 7], [6, 5, 4]] : List (List Int)) (by decide)
  refine ⟨by decide, by decide, by decide, ?_, h.2 2 0 (Or.inl (by decide))⟩
  rw [(h.1 1 2 (by decide) (by decide)).1]
  decide

/-- Mapping a binary function of index and element over an enumerated list is
mapping over the index range, reading elements through `getD`. -/
theorem enumFrom_map_eq_range_map {α β : Type} (l : List α) (n : Nat) (d : α)
    (f : Nat → α → β) :
    (l.enumFrom n).map (fun ja => f ja.1 ja.2) =
      (List.range l.length).map (fun p => f (n + p) (l.getD p d)) := by
  induction l generalizing n f with
  | nil => rfl
  | cons a t ih =>
    have h1 : ((a :: t).enumFrom n).map (fun ja => f ja.1 ja.2) =
        f n a :: (t.enumFrom (n + 1)).map (fun ja => f ja.1 ja.2) := rfl
    rw [h1, ih (n + 1) f, List.length_cons, List.range_succ_eq_map, List.map_cons,
      List.map_map]
    congr 1
    apply List.map_congr_left
    intro p _
    show f (n + 1 + p) (t.getD p d) = f (n + (p + 1)) ((a :: t).getD (p + 1) d)
    rw [show n + 1 + p = n + (p + 1) by omega]
    rfl

/-- A list of known length is the range-indexed map of its own entries. -/
theorem eq_range_map_getD {α : Type} (l : List α) (N : Nat) (h : l.length = N) (d : α) :
    (List.range N).map (fun p => l.getD p d) = l := by
  apply List.ext_get?_iff.mpr
  intro n
  rw [List.get?_map]
  by_cases hn : n < N
  · rw [List.get?_range hn]
    exact (get?_eq_some_getD l n d (by omega)).symm
  · have h1 : (List.range N).get? n = none :=
      List.get?_eq_none.mpr (by rw [List.length_range]; omega)
    have h2 : l.get? n = none := List.get?_eq_none.mpr (by omega)
    rw [h1, h2]
    rfl

/-- The sum of a range-indexed list that vanishes everywhere except at one
in-range index `i` is the value at `i`. -/
theorem sum_map_range_ite {M : Type} [AddMonoid M] (g : Nat → M) :
    ∀ (N i : Nat), i < N →
      ((List.range N).map fun p => if p = i then g p else 0).sum = g i := by
  intro N
  induction N with
  | zero =>
    intro i hi
    exact absurd hi (by omega)
  | succ n ih =>
    intro i hi
    rw [List.range_succ, List.map_append, List.sum_append]
    by_cases h : i = n
    · subst h
      have hz : ((List.range i).map fun p => if p = i then g p else 0).sum = 0 := by
        apply List.sum_eq_zero
        intro x hx
        rcases List.mem_map.mp hx with ⟨p, hp, hpx⟩
        have : p < i := List.mem_range.mp hp
        rw [← hpx, if_neg (by omega)]
      rw [hz]
      show 0 + ((if i = i then g i else 0) + 0) = g i
      rw [if_pos rfl, zero_add, add_zero]
    · rw [ih i (by omega)]
      show g i + ((if n = i then g n else 0) + 0) = g i
      rw [if_neg (fun hh => h hh.symm), zero_add, add_zero]

/-- The row of the matrix product at an in-range index, as produced by the
triple loop of `Mul::mul`. -/
theorem mul_get? {C : Type} [Mul C] [Add C] [Zero C] (R K : Nat)
    (left right : List (List C)) (i : Nat) (hi : i < R) :
    (mul R K left right).get? i =
      some ((List.range K).map fun col =>
        ((left.getD i []).enum.map fun ja =>
          ja.2 * ((right.getD ja.1 []).getD col 0)).sum) := by
  rw [mul, List.get?_map, List.get?_range hi]
  rfl

/-- An entry of the matrix product, rewritten from the enumerated-row form of
the source into the standard sum over the inner dimension. -/
theorem mul_entry {C : Type} [Mul C] [Add C] [Zero C] (Q : Nat) (lrow : List C)
    (hrow : lrow.length = Q) (right : List (List C)) (col : Nat) :
    (lrow.enum.map fun ja => ja.2 * ((right.getD ja.1 []).getD col 0)).sum =
      ((List.range Q).map fun p =>
        lrow.getD p 0 * ((right.getD p []).getD col 0)).sum := by
  refine congrArg List.sum ?_
  have h := enumFrom_map_eq_range_map lrow 0 0
    (fun p a => a * ((right.getD p []).getD col 0))
  rw [show lrow.enum = lrow.enumFrom 0 from rfl, h, hrow]
  apply List.map_congr_left
  intro p _
  rw [Nat.zero_add]

/-- C1: the product of an `R×Q` matrix by a `Q×K` matrix is an `R×K` matrix
whose `(i, j)` entry is the sum over `p ∈ [0, Q)` of `left[i][p] * right[p][j]`;
in particular `[[1,2],[3,4],[5,6]] * [[9,8,7],[6,5,4]]` is
`[[21,18,15],[51,44,37],[81,70,59]]`. -/
theorem mul_spec {C : Type} [Mul C] [Add C] [Zero C] :
    (∀ (R Q K : Nat) (left right : List (List C)),
      Dims left R Q → Dims right Q K →
      Dims (mul R K left right) R K ∧
      (∀ i j, i < R → j < K →
        get (mul R K left right) i j =
          some (((List.range Q).map fun p =>
            (left.getD i []).getD p 0 * ((right.getD p []).getD j 0)).sum))) ∧
    mul 3 3 (fromArray [[1, 2], [3, 4], [5, 6]]) (fromArray [[9, 8, 7], [6, 5, 4]]) =
      ([[21, 18, 15], [51, 44, 37], [81, 70, 59]] : List (List Int)) := by
  constructor
  · intro R Q K left right hl hr
    have hLl : left.length = R := hl.1
    constructor
    · constructor
      · rw [mul, List.length_map, List.length_range]
      · intro row hrow
        rw [mul] at hrow
        rcases List.mem_map.mp hrow with ⟨i, _, hieq⟩
        rw [← hieq, List.length_map, List.length_range]
    · intro i j hi hj
      apply (get_eq_some _ i j _).mpr
      refine ⟨_, mul_get? R K left right i hi, ?_⟩
      rw [List.get?_map, List.get?_range hj, Option.map_some']
      have hg : left.get? i = some (left.getD i []) :=
        get?_eq_some_getD left i [] (by omega)
      have hrowlen : (left.getD i []).length = Q := hl.2 _ (List.get?_mem hg)
      congr 1
      exact mul_entry Q (left.getD i []) hrowlen right j
  · decide

/-- C1 witness: on the 3×2 and 2×3 example matrices, the dimension hypotheses
hold and the entry at (0, 0) of the product is `1*9 + 2*6 = 21`. -/
theorem mul_spec_witness :
    Dims ([[1, 2], [3, 4], [5, 6]] : List (List Int)) 3 2 ∧
    Dims ([[9, 8, 7], [6, 5, 4]] : List (List Int)) 2 3 ∧
    get (mul 3 3 ([[1, 2], [3, 4], [5, 6]] : List (List Int)) [[9, 8, 7], [6, 5, 4]])
      0 0 = some 21 := by
  refine ⟨by decide, by decide, ?_⟩
  have h := (mul_spec.1 3 2 3 ([[1, 2], [3, 4], [5, 6]] : List (List Int))
    [[9, 8, 7], [6, 5, 4]] (by decide) (by decide)).2 0 0 (by decide) (by decide)
  rw [h]
  decide

/-- A row of the `nil` matrix: all-zero rows at every in-range index. -/
theorem nil_get? {C : Type} [Zero C] (SIZE i : Nat) :
    (nil (C := C) SIZE).get? i =
      if i < SIZE then some (List.replicate SIZE (0 : C)) else none := by
  rw [nil, List.get?_eq_getElem?]
  simp [List.getElem?_replicate]

/-- `nil` has `SIZE` rows. -/
theorem nil_length {C : Type} [Zero C] (SIZE : Nat) :
    (nil (C := C) SIZE).length = SIZE := by
  rw [nil, List.length_replicate]

/-- The diagonal-setting loop of `identity` preserves the row count. -/
theorem identity_foldl_length {C : Type} [Zero C] [One C] (SIZE k : Nat) :
    ((List.range k).foldl (fun m i => m.set i ((m.getD i []).set i 1))
      (nil (C := C) SIZE)).length = SIZE := by
  induction k with
  | zero => exact nil_length SIZE
  | succ n ih =>
    rw [List.range_succ, List.foldl_append, List.foldl_cons, List.foldl_nil,
      List.length_set, ih]

/-- After the first `k` iterations of the diagonal-setting loop of `identity`,
rows below `k` carry the single-one row and the remaining rows are still the
`nil` rows. -/
theorem identity_foldl_get? {C : Type} [Zero C] [One C] (SIZE : Nat) :
    ∀ (k : Nat), k ≤ SIZE → ∀ (j : Nat),
      ((List.range k).foldl (fun m i => m.set i ((m.getD i []).set i 1))
        (nil (C := C) SIZE)).get? j =
      if j < k then some ((List.replicate SIZE (0 : C)).set j 1)
      else (nil (C := C) SIZE).get? j := by
  intro k
  induction k with
  | zero =>
    intro _ j
    rw [if_neg (by omega)]
    rfl
  | succ n ih =>
    intro hk j
    rw [List.range_succ, List.foldl_append, List.foldl_cons, List.foldl_nil]
    have hgetn : ((List.range n).foldl (fun m i => m.set i ((m.getD i []).set i 1))
        (nil (C := C) SIZE)).getD n [] = List.replicate SIZE (0 : C) := by
      rw [List.getD_eq_getD_get?, ih (by omega) n, if_neg (by omega), nil_get?,
        if_pos (by omega : n < SIZE)]
      rfl
    rw [hgetn]
    by_cases hj : j = n
    · subst hj
      rw [List.get?_set_eq_of_lt _ (by rw [identity_foldl_length]; omega),
        if_pos (by omega)]
    · rw [List.get?_set_ne _ _ (fun hh => hj hh.symm), ih (by omega) j]
      by_cases hjn : j < n
      · rw [if_pos hjn, if_pos (by omega)]
      · rw [if_neg hjn, if_neg (by omega)]

/-- A row of `identity`: at every in-range index `j` it is the all-zero row
with the diagonal position `j` set to one. -/
theorem identity_get? {C : Type} [Zero C] [One C] (SIZE j : Nat) :
    (identity (C := C) SIZE).get? j =
      if j < SIZE then some ((List.replicate SIZE (0 : C)).set j 1) else none := by
  rw [identity, identity_foldl_get? SIZE SIZE le_rfl j]
  by_cases h : j < SIZE
  · rw [if_pos h, if_pos h]
  · rw [if_neg h, if_neg h, nil_get?, if_neg h]

/-- An entry of an identity row: the multiplicative identity on the diagonal,
the additive identity elsewhere. -/
theorem identity_row_getD {C : Type} [Zero C] [One C] (SIZE j p : Nat)
    (hp : p < SIZE) (d : C) :
    ((List.replicate SIZE (0 : C)).set j 1).getD p d = if p = j then 1 else 0 := by
  by_cases h : p = j
  · subst h
    rw [if_pos rfl, List.getD_eq_getD_get?,
      List.get?_set_eq_of_lt _ (by rw [List.length_replicate]; omega)]
    rfl
  · rw [if_neg h, List.getD_eq_getD_get?, List.get?_set_ne _ _ (fun hh => h hh.symm),
      List.get?_eq_getElem?]
    simp [List.getElem?_replicate, hp]

/-- C6: over a coefficient type with the usual (non-associative) semiring laws,
`identity()` is a two-sided identity for the matrix product on every `N×N`
matrix. -/
theorem identity_law {C : Type} [NonAssocSemiring C] (N : Nat) (A : List (List C))
    (h : Dims A N N) :
    mul N N (identity N) A = A ∧ mul N N A (identity N) = A := by
  have hA : A.length = N := h.1
  constructor
  · apply List.ext_get?_iff.mpr
    intro i
    by_cases hi : i < N
    · rw [mul_get? N N (identity N) A i hi]
      have hAi : A.get? i = some (A.getD i []) := get?_eq_some_getD A i [] (by omega)
      have hArow : (A.getD i []).length = N := h.2 _ (List.get?_mem hAi)
      rw [hAi]
      congr 1
      have hidrow : (identity (C := C) N).getD i [] =
          (List.replicate N (0 : C)).set i 1 := by
        rw [List.getD_eq_getD_get?, identity_get?, if_pos hi]
        rfl
      rw [hidrow]
      conv_rhs => rw [← eq_range_map_getD (A.getD i []) N hArow 0]
      apply List.map_congr_left
      intro col hcol
      have hcolN : col < N := List.mem_range.mp hcol
      rw [mul_entry N _ (by rw [List.length_set, List.length_replicate]) A col]
      have hterm : ∀ p ∈ List.range N,
          ((List.replicate N (0 : C)).set i 1).getD p 0 * ((A.getD p []).getD col 0) =
          (if p = i then (A.getD p []).getD col 0 else 0) := by
        intro p hp
        rw [identity_row_getD N i p (List.mem_range.mp hp) 0]
        by_cases hpi : p = i
        · rw [if_pos hpi, if_pos hpi, one_mul]
        · rw [if_neg hpi, if_neg hpi, zero_mul]
      rw [List.map_congr_left hterm,
        sum_map_range_ite (fun p => (A.getD p []).getD col 0) N i hi]
    · have h1 : (mul N N (identity (C := C) N) A).get? i = none := by
        apply List.get?_eq_none.mpr
        rw [mul, List.length_map, List.length_range]
        omega
      have h2 : A.get? i = none := List.get?_eq_none.mpr (by omega)
      rw [h1, h2]
  · apply List.ext_get?_iff.mpr
    intro i
    by_cases hi : i < N
    · rw [mul_get? N N A (identity N) i hi]
      have hAi : A.get? i = some (A.getD i []) := get?_eq_some_getD A i [] (by omega)
      have hArow : (A.getD i []).length = N := h.2 _ (List.get?_mem hAi)
      rw [hAi]
      congr 1
      conv_rhs => rw [← eq_range_map_getD (A.getD i []) N hArow 0]
      apply List.map_congr_left
      intro col hcol
      have hcolN : col < N := List.mem_range.mp hcol
      rw [mul_entry N (A.getD i []) hArow (identity N) col]
      have hterm : ∀ p ∈ List.range N,
          (A.getD i []).getD p 0 * (((identity (C := C) N).getD p []).getD col 0) =
          (if p = col then (A.getD i []).getD p 0 else 0) := by
        intro p hp
        have hpN : p < N := List.mem_range.mp hp
        have hidrow : (identity (C := C) N).getD p [] =
            (List.replicate N (0 : C)).set p 1 := by
          rw [List.getD_eq_getD_get?, identity_get?, if_pos hpN]
          rfl
        rw [hidrow, identity_row_getD N p col hcolN 0]
        by_cases hpc : p = col
        · rw [if_pos (show col = p from hpc.symm), if_pos hpc, mul_one]
        · rw [if_neg (fun hh => hpc hh.symm), if_neg hpc, mul_zero]
      rw [List.map_congr_left hterm,
        sum_map_range_ite (fun p => (A.getD i []).getD p 0) N col hcolN]
    · have h1 : (mul N N A (identity (C := C) N)).get? i = none := by
        apply List.get?_eq_none.mpr
        rw [mul, List.length_map, List.length_range]
        omega
      have h2 : A.get? i = none := List.get?_eq_none.mpr (by omega)
      rw [h1, h2]

/-- C6 witness: over the integers, `identity()` multiplied on either side
leaves concrete 2×2 and 3×3 matrices unchanged. -/
theorem identity_law_witness :
    Dims ([[1, 2], [6, 7]] : List (List Int)) 2 2 ∧
    Dims ([[1, 2, 1], [3, 4, 1], [1, 5, 6]] : List (List Int)) 3 3 ∧
    mul 2 2 (identity 2) ([[1, 2], [6, 7]] : List (List Int)) = [[1, 2], [6, 7]] ∧
    mul 2 2 ([[1, 2], [6, 7]] : List (List Int)) (identity 2) = [[1, 2], [6, 7]] ∧
    mul 3 3 (identity 3) ([[1, 2, 1], [3, 4, 1], [1, 5, 6]] : List (List Int)) =
      [[1, 2, 1], [3, 4, 1], [1, 5, 6]] ∧
    mul 3 3 ([[1, 2, 1], [3, 4, 1], [1, 5, 6]] : List (List Int)) (identity 3) =
      [[1, 2, 1], [3, 4, 1], [1, 5, 6]] := by
  have h2 := identity_law 2 ([[1, 2], [6, 7]] : List (List Int)) (by decide)
  have h3 := identity_law 3 ([[1, 2, 1], [3, 4, 1], [1, 5, 6]] : List (List Int))
    (by decide)
  exact ⟨by decide, by decide, h2.1, h2.2, h3.1, h3.2⟩

end MatrixLib
